import Mathlib

/-!
# Verification of the `connection` message-framing layer

Shallow embedding of `src/lib.rs` (crate `connection`): a TCP-based
connection that sends and receives bincode-serialized values.

Modelling choices:
* Bytes are `Nat` (values below 256 where it matters), buffers are `List Nat`.
* The incoming byte stream is a list of chunks: the bytes that successive
  `read_buf` calls deliver.  An empty chunk, and an exhausted chunk list,
  model `read_buf` returning `0` (the peer closed its write side; in TCP
  the zero read repeats forever once the list is exhausted).
* `Connection::read`'s `loop` is embedded with explicit fuel; `none` means
  the loop did not finish within the given number of iterations (so a result
  of `none` at every fuel is non-termination).
* `bincode::deserialize_from` on a `Cursor` over the buffer reads a prefix
  of the buffer and ignores trailing bytes; the source maps every decode
  error to `None` ("need more data").  The codec itself is abstracted as a
  `Codec`; `CodecLaws` are the self-delimiting guarantees bincode provides,
  and two concrete instances are built: the bincode encoding of the test
  suite's `TestMessage { id: u32, name: String, payload: Vec<u8> }` and of
  `bool`.
-/

/-- The failure modes of a connection (`enum ConnectionError`). -/
inductive ConnectionError where
  /-- An error encountered during IO. -/
  | ioError : ConnectionError
  /-- An error encountered during (de)serialization. -/
  | bincodeError : ConnectionError
  /-- An error encountered when the network connection is dropped. -/
  | connectionReset (msg : String) : ConnectionError
  deriving DecidableEq, Repr

/-- A binary codec, modelling `bincode` at a fixed Rust type `T`.  `decode`
consumes a prefix of its input and ignores trailing bytes, as
`bincode::deserialize_from` does on a `Cursor`; `valid` carves out the
values representable by the Rust type (integer-width bounds etc.). -/
structure Codec (α : Type) where
  valid : α → Prop
  encode : α → List Nat
  decode : List Nat → Option α

/-- The self-delimiting guarantees of the bincode format: decoding the
encoding of a valid value succeeds whatever follows it, and decoding any
strict prefix of an encoding reports "not enough bytes" (`none`). -/
structure CodecLaws {α : Type} (C : Codec α) : Prop where
  decode_nil : C.decode [] = none
  decode_encode : ∀ v rest, C.valid v → C.decode (C.encode v ++ rest) = some v
  decode_short : ∀ v n, C.valid v → n < (C.encode v).length →
    C.decode ((C.encode v).take n) = none

/-- Receive-side state of a `Connection`: the internal `BytesMut` buffer,
plus the bytes still in flight (the results of future `read_buf` calls). -/
structure ConnState where
  buffer : List Nat
  chunks : List (List Nat)
  deriving DecidableEq, Repr

/-- `Connection::parse_value`: attempt to deserialize a `T` from the internal
buffer.  `bincode::deserialize_from` reads from a cursor over the buffer;
`Ok(value)` becomes `Some`, every `Err(_)` is collapsed to `None`. -/
def Connection.parseValue {α : Type} (C : Codec α) (s : ConnState) :
    Except ConnectionError (Option α) :=
  .ok (C.decode s.buffer)

/-- `Connection::read_to_buffer`: one `read_buf` call.  A zero-byte read
means the peer closed: `Ok(())` if the buffer is empty, `ConnectionReset`
otherwise.  A nonzero read appends the bytes at the tail of the buffer. -/
def Connection.readToBuffer (s : ConnState) : Except ConnectionError ConnState :=
  match s.chunks with
  | [] =>
      if s.buffer.isEmpty then .ok s
      else .error (.connectionReset "connection reset by peer")
  | c :: rest =>
      if c.length = 0 then
        if s.buffer.isEmpty then .ok { s with chunks := rest }
        else .error (.connectionReset "connection reset by peer")
      else .ok { buffer := s.buffer ++ c, chunks := rest }

/-- `Connection::read`: loop { parse; on success clear the whole buffer and
return the value; otherwise fill the buffer and retry }.  The fuel bounds the
number of loop iterations; `none` means the loop was still running. -/
def Connection.read {α : Type} (C : Codec α) :
    Nat → ConnState → Option (Except ConnectionError (Option α) × ConnState)
  | 0, _ => none
  | fuel + 1, s =>
      match Connection.parseValue C s with
      | .error e => some (.error e, s)
      | .ok (some v) => some (.ok (some v), { s with buffer := [] })
      | .ok none =>
          match Connection.readToBuffer s with
          | .error e => some (.error e, s)
          | .ok s2 => Connection.read C fuel s2

/-- Ghost observer of `Connection::read`: the successive values of the
receive buffer at each iteration of the loop, mirroring `Connection.read`'s
control flow branch by branch.  Each iteration contributes the buffer it
starts from; the final `buffer.clear()` of a successful decode contributes
the trailing `[]`.  Adjacent entries of this trace are exactly the
before/after of one buffer mutation performed by the call. -/
def Connection.readTrace {α : Type} (C : Codec α) :
    Nat → ConnState → List (List Nat)
  | 0, s => [s.buffer]
  | fuel + 1, s =>
      match Connection.parseValue C s with
      | .error _ => [s.buffer]
      | .ok (some _) => [s.buffer, []]
      | .ok none =>
          match Connection.readToBuffer s with
          | .error _ => [s.buffer]
          | .ok s2 => s.buffer :: Connection.readTrace C fuel s2

/-- Write-side state: the `BufWriter<TcpStream>`.  `sent` are bytes pushed to
the underlying stream, `pending` sits in the writer's buffer awaiting a
flush; the two flags are the I/O fault oracle for the next write/flush. -/
structure OutStream where
  sent : List Nat
  pending : List Nat
  writeFails : Bool
  flushFails : Bool
  deriving DecidableEq, Repr

/-- `AsyncWriteExt::write_all` on the `BufWriter`. -/
def Connection.writeAll (s : OutStream) (buf : List Nat) :
    Except ConnectionError OutStream :=
  if s.writeFails then .error .ioError
  else .ok { s with pending := s.pending ++ buf }

/-- `AsyncWriteExt::flush` on the `BufWriter`. -/
def Connection.flushStream (s : OutStream) : Except ConnectionError OutStream :=
  if s.flushFails then .error .ioError
  else .ok { s with sent := s.sent ++ s.pending, pending := [] }

/-- `Connection::write_to_stream`: `write_all` then `flush`. -/
def Connection.writeToStream (s : OutStream) (buf : List Nat) :
    Except ConnectionError OutStream :=
  match Connection.writeAll s buf with
  | .error e => .error e
  | .ok s1 => Connection.flushStream s1

/-- `Connection::write`: serialize with bincode, then `write_to_stream`.
(`bincode::serialize` cannot fail on the value types modelled here, so the
`BincodeError` branch of the source is not reachable in the model.) -/
def Connection.write {α : Type} (C : Codec α) (v : α) (s : OutStream) :
    Except ConnectionError OutStream :=
  Connection.writeToStream s (C.encode v)

/-! ## A concrete bincode model

Bincode's default configuration: fixed-width little-endian integers,
`u64` length prefixes for `String` and `Vec<u8>`. -/

/-- `w`-byte little-endian encoding of `n`. -/
def leBytes : Nat → Nat → List Nat
  | 0, _ => []
  | w + 1, n => n % 256 :: leBytes w (n / 256)

/-- Read back a little-endian byte list. -/
def fromLE : List Nat → Nat
  | [] => 0
  | b :: r => b + 256 * fromLE r

/-- Split off the first `n` bytes, or fail if fewer are available. -/
def takeN (n : Nat) (bs : List Nat) : Option (List Nat × List Nat) :=
  if n ≤ bs.length then some (bs.take n, bs.drop n) else none

/-- Bincode decode of a `u32` (4 bytes, little-endian). -/
def decodeU32 (bs : List Nat) : Option (Nat × List Nat) :=
  match takeN 4 bs with
  | none => none
  | some (p, r) => some (fromLE p, r)

/-- Bincode decode of a `u64` (8 bytes, little-endian). -/
def decodeU64 (bs : List Nat) : Option (Nat × List Nat) :=
  match takeN 8 bs with
  | none => none
  | some (p, r) => some (fromLE p, r)

/-- Bincode decode of a length-prefixed byte sequence (`String` / `Vec<u8>`):
a `u64` length followed by that many bytes. -/
def decodeByteSeq (bs : List Nat) : Option (List Nat × List Nat) :=
  match decodeU64 bs with
  | none => none
  | some (n, r) => takeN n r

/-- The test suite's message type:
`struct TestMessage { id: u32, name: String, payload: Vec<u8> }`
(the `String` is modelled by its UTF-8 bytes). -/
structure TestMessage where
  id : Nat
  name : List Nat
  payload : List Nat
  deriving DecidableEq, Repr

/-- Bincode encoding of a `TestMessage`. -/
def msgEncode (m : TestMessage) : List Nat :=
  leBytes 4 m.id ++ leBytes 8 m.name.length ++ m.name ++
    leBytes 8 m.payload.length ++ m.payload

/-- Bincode decode of a `TestMessage`, returning the remaining bytes. -/
def msgDecodeFrom (bs : List Nat) : Option (TestMessage × List Nat) :=
  match decodeU32 bs with
  | none => none
  | some (i, r1) =>
      match decodeByteSeq r1 with
      | none => none
      | some (nm, r2) =>
          match decodeByteSeq r2 with
          | none => none
          | some (pl, r3) => some (⟨i, nm, pl⟩, r3)

/-- `bincode::deserialize_from::<TestMessage>` on a cursor: the value, with
trailing bytes ignored. -/
def msgDecode (bs : List Nat) : Option TestMessage :=
  match msgDecodeFrom bs with
  | none => none
  | some (m, _) => some m

/-- Well-formedness of a `TestMessage` as a Rust value: the `u32` fits,
the strings/vectors fit their `u64` length prefixes, bytes are bytes. -/
def msgValid (m : TestMessage) : Prop :=
  m.id < 256 ^ 4 ∧ m.name.length < 256 ^ 8 ∧ m.payload.length < 256 ^ 8 ∧
    (∀ b ∈ m.name, b < 256) ∧ (∀ b ∈ m.payload, b < 256)

instance (m : TestMessage) : Decidable (msgValid m) := by
  unfold msgValid; infer_instance

/-- The bincode codec at type `TestMessage`. -/
def msgCodec : Codec TestMessage where
  valid := msgValid
  encode := msgEncode
  decode := msgDecode

/-- Bincode encoding of `bool`: one byte, `1` for `true`, `0` for `false`. -/
def boolEncode (b : Bool) : List Nat :=
  [if b then 1 else 0]

/-- Bincode decode of `bool`: byte `1` is `true`, `0` is `false`, anything
else is `InvalidBoolEncoding` — a hard error the source collapses to `None`;
an empty input is "not enough bytes". -/
def boolDecode : List Nat → Option Bool
  | [] => none
  | b :: _ => if b = 1 then some true else if b = 0 then some false else none

/-- The bincode codec at type `bool`. -/
def boolCodec : Codec Bool where
  valid := fun _ => True
  encode := boolEncode
  decode := boolDecode

/-- The message of the spec's test scenario:
`{id: 123, name: "Test Message", payload: [1,2,3,4,5]}`. -/
def specMessage : TestMessage :=
  ⟨123, [84, 101, 115, 116, 32, 77, 101, 115, 115, 97, 103, 101],
    [1, 2, 3, 4, 5]⟩

/-- One observable change of the receive buffer: append some bytes at the
tail, or clear it entirely. -/
def bufStep (b b2 : List Nat) : Prop :=
  (∃ c, b2 = b ++ c) ∨ b2 = []

/-- One successful fill read (`read_to_buffer` returning `Ok`). -/
def fillStep (s t : ConnState) : Prop :=
  Connection.readToBuffer s = .ok t

/-! ## Codec laws -/

/-- The encoding of a valid value is nonempty (otherwise `decode_nil` and
`decode_encode` would disagree on `[]`). -/
theorem CodecLaws.encode_ne_nil {α : Type} {C : Codec α} (hC : CodecLaws C)
    {v : α} (hv : C.valid v) : C.encode v ≠ [] := by
  intro h
  have h1 := hC.decode_encode v [] hv
  rw [h, List.nil_append, hC.decode_nil] at h1
  exact Option.noConfusion h1

theorem leBytes_length (w n : Nat) : (leBytes w n).length = w := by
  induction w generalizing n with
  | zero => rfl
  | succ w ih => simp [leBytes, ih]

theorem fromLE_leBytes (w n : Nat) (h : n < 256 ^ w) :
    fromLE (leBytes w n) = n := by
  induction w generalizing n with
  | zero => interval_cases n; rfl
  | succ w ih =>
      have hdiv : n / 256 < 256 ^ w := by
        rw [Nat.div_lt_iff_lt_mul (by norm_num)]
        calc n < 256 ^ (w + 1) := h
        _ = 256 ^ w * 256 := by ring
      simp only [leBytes, fromLE, ih (n / 256) hdiv]
      omega

theorem takeN_exact (l r : List Nat) : takeN l.length (l ++ r) = some (l, r) := by
  simp [takeN, List.take_left, List.drop_left]

theorem takeN_short (n : Nat) (bs : List Nat) (h : bs.length < n) :
    takeN n bs = none := by
  simp [takeN]
  omega

theorem take_append_ge (A B : List Nat) (n : Nat) (h : A.length ≤ n) :
    (A ++ B).take n = A ++ B.take (n - A.length) := by
  rw [List.take_append_eq_append_take, List.take_of_length_le h]

theorem decodeU32_enc (i : Nat) (rest : List Nat) (h : i < 256 ^ 4) :
    decodeU32 (leBytes 4 i ++ rest) = some (i, rest) := by
  have h4 : takeN 4 (leBytes 4 i ++ rest) = some (leBytes 4 i, rest) := by
    have := takeN_exact (leBytes 4 i) rest
    rwa [leBytes_length] at this
  simp [decodeU32, h4, fromLE_leBytes 4 i h]

theorem decodeU64_enc (i : Nat) (rest : List Nat) (h : i < 256 ^ 8) :
    decodeU64 (leBytes 8 i ++ rest) = some (i, rest) := by
  have h8 : takeN 8 (leBytes 8 i ++ rest) = some (leBytes 8 i, rest) := by
    have := takeN_exact (leBytes 8 i) rest
    rwa [leBytes_length] at this
  simp [decodeU64, h8, fromLE_leBytes 8 i h]

theorem decodeByteSeq_enc (l rest : List Nat) (h : l.length < 256 ^ 8) :
    decodeByteSeq (leBytes 8 l.length ++ (l ++ rest)) = some (l, rest) := by
  simp [decodeByteSeq, decodeU64_enc l.length (l ++ rest) h, takeN_exact]

theorem decodeU32_short (bs : List Nat) (h : bs.length < 4) :
    decodeU32 bs = none := by
  simp [decodeU32, takeN_short 4 bs h]

theorem decodeU64_short (bs : List Nat) (h : bs.length < 8) :
    decodeU64 bs = none := by
  simp [decodeU64, takeN_short 8 bs h]

theorem decodeByteSeq_take_short (l tail : List Nat) (n : Nat)
    (hL : l.length < 256 ^ 8) (hn : n < 8 + l.length) :
    decodeByteSeq ((leBytes 8 l.length ++ (l ++ tail)).take n) = none := by
  by_cases h8 : n < 8
  · have hlen : ((leBytes 8 l.length ++ (l ++ tail)).take n).length < 8 := by
      rw [List.length_take]
      omega
    simp [decodeByteSeq, decodeU64_short _ hlen]
  · push_neg at h8
    have hA : (leBytes 8 l.length).length ≤ n := by rw [leBytes_length]; exact h8
    rw [take_append_ge _ _ n hA, leBytes_length]
    have hrest : ((l ++ tail).take (n - 8)).length < l.length := by
      rw [List.length_take]
      omega
    simp [decodeByteSeq, decodeU64_enc l.length _ hL, takeN_short _ _ hrest]

theorem decodeByteSeq_take_exact (l tail : List Nat) (n : Nat)
    (hL : l.length < 256 ^ 8) (hn : 8 + l.length ≤ n) :
    decodeByteSeq ((leBytes 8 l.length ++ (l ++ tail)).take n) =
      some (l, tail.take (n - 8 - l.length)) := by
  have hA : (leBytes 8 l.length).length ≤ n := by rw [leBytes_length]; omega
  rw [take_append_ge _ _ n hA, leBytes_length]
  have hl : l.length ≤ n - 8 := by omega
  rw [take_append_ge l tail (n - 8) hl]
  have := decodeByteSeq_enc l (tail.take (n - 8 - l.length)) hL
  rw [this]

theorem msgDecodeFrom_enc (m : TestMessage) (rest : List Nat)
    (hv : msgValid m) :
    msgDecodeFrom (msgEncode m ++ rest) = some (m, rest) := by
  obtain ⟨h1, h2, h3, _, _⟩ := hv
  have hE : msgEncode m ++ rest =
      leBytes 4 m.id ++ (leBytes 8 m.name.length ++ (m.name ++
        (leBytes 8 m.payload.length ++ (m.payload ++ rest)))) := by
    simp [msgEncode, List.append_assoc]
  rw [hE]
  have hname : decodeByteSeq (leBytes 8 m.name.length ++ (m.name ++
      (leBytes 8 m.payload.length ++ (m.payload ++ rest)))) =
      some (m.name, leBytes 8 m.payload.length ++ (m.payload ++ rest)) :=
    decodeByteSeq_enc _ _ h2
  simp [msgDecodeFrom, decodeU32_enc m.id _ h1, hname, decodeByteSeq_enc _ _ h3]

theorem msgEncode_length (m : TestMessage) :
    (msgEncode m).length = 20 + m.name.length + m.payload.length := by
  simp [msgEncode, leBytes_length]
  omega

theorem msgDecode_take_short (m : TestMessage) (n : Nat) (hv : msgValid m)
    (hn : n < (msgEncode m).length) :
    msgDecode ((msgEncode m).take n) = none := by
  obtain ⟨h1, h2, h3, _, _⟩ := hv
  rw [msgEncode_length] at hn
  have hE : msgEncode m =
      leBytes 4 m.id ++ (leBytes 8 m.name.length ++ (m.name ++
        (leBytes 8 m.payload.length ++ m.payload))) := by
    simp [msgEncode, List.append_assoc]
  rw [hE]
  by_cases h4 : n < 4
  · have hlen : ((leBytes 4 m.id ++ (leBytes 8 m.name.length ++ (m.name ++
        (leBytes 8 m.payload.length ++ m.payload)))).take n).length < 4 := by
      rw [List.length_take]
      omega
    simp [msgDecode, msgDecodeFrom, decodeU32_short _ hlen]
  · push_neg at h4
    have hA : (leBytes 4 m.id).length ≤ n := by rw [leBytes_length]; exact h4
    rw [take_append_ge _ _ n hA, leBytes_length]
    by_cases hnm : n - 4 < 8 + m.name.length
    · have hs := decodeByteSeq_take_short m.name
        (leBytes 8 m.payload.length ++ (m.payload ++ [])) (n - 4) h2 hnm
      simp only [List.append_nil] at hs
      simp [msgDecode, msgDecodeFrom, decodeU32_enc m.id _ h1, hs]
    · push_neg at hnm
      have hx := decodeByteSeq_take_exact m.name
        (leBytes 8 m.payload.length ++ (m.payload ++ [])) (n - 4) h2 hnm
      have hpl : n - 4 - 8 - m.name.length < 8 + m.payload.length := by omega
      have hy := decodeByteSeq_take_short m.payload [] (n - 4 - 8 - m.name.length)
        h3 hpl
      simp only [List.append_nil] at hx hy
      simp [msgDecode, msgDecodeFrom, decodeU32_enc m.id _ h1, hx, hy]

/-- The bincode `TestMessage` codec satisfies the self-delimiting laws. -/
theorem msgCodec_laws : CodecLaws msgCodec := by
  constructor
  · rfl
  · intro v rest hv
    show msgDecode (msgEncode v ++ rest) = some v
    simp [msgDecode, msgDecodeFrom_enc v rest hv]
  · intro v n hv hn
    exact msgDecode_take_short v n hv hn

/-- The bincode `bool` codec satisfies the self-delimiting laws. -/
theorem boolCodec_laws : CodecLaws boolCodec := by
  constructor
  · rfl
  · intro v rest _
    cases v <;> simp [boolCodec, boolEncode, boolDecode]
  · intro v n _ hn
    have hn0 : n = 0 := by
      simp [boolCodec, boolEncode] at hn
      omega
    subst hn0
    simp [boolCodec, boolDecode]

/-! ## Read-loop step lemmas -/

theorem read_succ_some {α : Type} (C : Codec α) (fuel : Nat) (s : ConnState)
    (v : α) (hd : C.decode s.buffer = some v) :
    Connection.read C (fuel + 1) s = some (.ok (some v), { s with buffer := [] }) := by
  simp [Connection.read, Connection.parseValue, hd]

theorem read_succ_err {α : Type} (C : Codec α) (fuel : Nat) (s : ConnState)
    (e : ConnectionError) (hd : C.decode s.buffer = none)
    (hr : Connection.readToBuffer s = .error e) :
    Connection.read C (fuel + 1) s = some (.error e, s) := by
  simp [Connection.read, Connection.parseValue, hd, hr]

theorem read_succ_fill {α : Type} (C : Codec α) (fuel : Nat) (s t : ConnState)
    (hd : C.decode s.buffer = none) (hr : Connection.readToBuffer s = .ok t) :
    Connection.read C (fuel + 1) s = Connection.read C fuel t := by
  simp [Connection.read, Connection.parseValue, hd, hr]

theorem readTrace_succ_some {α : Type} (C : Codec α) (fuel : Nat)
    (s : ConnState) (v : α) (hd : C.decode s.buffer = some v) :
    Connection.readTrace C (fuel + 1) s = [s.buffer, []] := by
  simp [Connection.readTrace, Connection.parseValue, hd]

theorem readTrace_succ_err {α : Type} (C : Codec α) (fuel : Nat)
    (s : ConnState) (e : ConnectionError) (hd : C.decode s.buffer = none)
    (hr : Connection.readToBuffer s = .error e) :
    Connection.readTrace C (fuel + 1) s = [s.buffer] := by
  simp [Connection.readTrace, Connection.parseValue, hd, hr]

theorem readTrace_succ_fill {α : Type} (C : Codec α) (fuel : Nat)
    (s t : ConnState) (hd : C.decode s.buffer = none)
    (hr : Connection.readToBuffer s = .ok t) :
    Connection.readTrace C (fuel + 1) s =
      s.buffer :: Connection.readTrace C fuel t := by
  simp [Connection.readTrace, Connection.parseValue, hd, hr]

/-- The trace of a read call always starts at the initial buffer. -/
theorem readTrace_cons {α : Type} (C : Codec α) (fuel : Nat) (s : ConnState) :
    ∃ T, Connection.readTrace C fuel s = s.buffer :: T := by
  cases fuel with
  | zero => exact ⟨[], rfl⟩
  | succ fuel =>
      cases hd : C.decode s.buffer with
      | some v => exact ⟨[[]], readTrace_succ_some C fuel s v hd⟩
      | none =>
          cases hr : Connection.readToBuffer s with
          | error e => exact ⟨[], readTrace_succ_err C fuel s e hd hr⟩
          | ok t =>
              exact ⟨Connection.readTrace C fuel t,
                readTrace_succ_fill C fuel s t hd hr⟩

theorem isEmpty_false_of_ne_nil (l : List Nat) (h : l ≠ []) :
    l.isEmpty = false := by
  cases l with
  | nil => exact absurd rfl h
  | cons a as => rfl

/-- A successful fill only ever appends bytes at the tail of the buffer. -/
theorem readToBuffer_ok_append (s t : ConnState)
    (h : Connection.readToBuffer s = .ok t) :
    ∃ c, t.buffer = s.buffer ++ c := by
  unfold Connection.readToBuffer at h
  cases hc : s.chunks with
  | nil =>
      rw [hc] at h
      by_cases hb : s.buffer.isEmpty
      · simp [hb] at h
        exact ⟨[], by rw [← h, List.append_nil]⟩
      · simp [hb] at h
  | cons c rest =>
      rw [hc] at h
      by_cases h0 : c.length = 0
      · by_cases hb : s.buffer.isEmpty
        · simp [h0, hb] at h
          exact ⟨[], by rw [← h, List.append_nil]⟩
        · simp [h0, hb] at h
      · simp [h0] at h
        exact ⟨c, by rw [← h]⟩

/-- A failing fill happens only with a non-empty buffer. -/
theorem readToBuffer_error_ne_nil (s : ConnState) (e : ConnectionError)
    (h : Connection.readToBuffer s = .error e) : s.buffer ≠ [] := by
  intro hb
  have hemp : s.buffer.isEmpty = true := by rw [hb]; rfl
  unfold Connection.readToBuffer at h
  cases hc : s.chunks with
  | nil => rw [hc] at h; simp [hemp] at h
  | cons c rest =>
      rw [hc] at h
      by_cases h0 : c.length = 0
      · simp [h0, hemp] at h
      · simp [h0] at h

/-- On a closed stream with an empty buffer, every iteration of the read
loop re-issues a zero-byte fill and loops again: no fuel suffices. -/
theorem read_empty_eof {α : Type} (C : Codec α) (hnil : C.decode [] = none)
    (fuel : Nat) :
    Connection.read C fuel { buffer := [], chunks := [] } = none := by
  induction fuel with
  | zero => rfl
  | succ fuel ih =>
      rw [read_succ_fill C fuel _ { buffer := [], chunks := [] } hnil
        (by simp [Connection.readToBuffer])]
      exact ih

/-- Buffers whose head is a malformed (never-decodable) byte sequence stay
undecodable: the loop never produces a value and never a `BincodeError`; it
keeps filling until the stream closes, which yields `ConnectionReset`. -/
theorem read_malformed_head {α : Type} (C : Codec α) (a : Nat) (p : List Nat)
    (hmal : ∀ rest, C.decode (a :: p ++ rest) = none) :
    ∀ (fuel : Nat) (t : List Nat) (chunks : List (List Nat)),
      Connection.read C fuel { buffer := a :: p ++ t, chunks := chunks } = none ∨
      ∃ s2, Connection.read C fuel { buffer := a :: p ++ t, chunks := chunks } =
        some (.error (.connectionReset "connection reset by peer"), s2) := by
  intro fuel
  induction fuel with
  | zero => intro t chunks; exact Or.inl rfl
  | succ fuel ih =>
      intro t chunks
      have hd : C.decode (a :: p ++ t) = none := hmal t
      cases chunks with
      | nil =>
          have hr : Connection.readToBuffer { buffer := a :: p ++ t, chunks := [] } =
              .error (.connectionReset "connection reset by peer") := by
            simp [Connection.readToBuffer]
          rw [read_succ_err C fuel _ _ hd hr]
          exact Or.inr ⟨_, rfl⟩
      | cons c rest =>
          by_cases h0 : c.length = 0
          · have hr : Connection.readToBuffer
                { buffer := a :: p ++ t, chunks := c :: rest } =
                .error (.connectionReset "connection reset by peer") := by
              simp [Connection.readToBuffer, h0]
            rw [read_succ_err C fuel _ _ hd hr]
            exact Or.inr ⟨_, rfl⟩
          · have hr : Connection.readToBuffer
                { buffer := a :: p ++ t, chunks := c :: rest } =
                .ok { buffer := (a :: p ++ t) ++ c, chunks := rest } := by
              simp [Connection.readToBuffer, h0]
            rw [read_succ_fill C fuel _ _ hd hr]
            have hassoc : (a :: p ++ t) ++ c = a :: p ++ (t ++ c) := by
              simp [List.append_assoc]
            rw [hassoc]
            exact ih (t ++ c) rest

/-- Delivering the encoding of a valid value in nonempty fragments on top of
a partial buffer: the loop keeps filling until the whole encoding is present,
then decodes it. -/
theorem read_fragments {α : Type} (C : Codec α) (hC : CodecLaws C) (v : α)
    (hv : C.valid v) :
    ∀ (cs : List (List Nat)) (p : List Nat), (∀ c ∈ cs, c ≠ []) →
      p.length < (C.encode v).length → p ++ cs.flatten = C.encode v →
      Connection.read C (cs.length + 1) { buffer := p, chunks := cs } =
        some (.ok (some v), { buffer := [], chunks := [] }) := by
  intro cs
  induction cs with
  | nil =>
      intro p _ hlen hjoin
      rw [List.flatten_nil, List.append_nil] at hjoin
      rw [hjoin] at hlen
      exact absurd hlen (lt_irrefl _)
  | cons c cs ih =>
      intro p hne hlen hjoin
      rw [List.flatten_cons] at hjoin
      have hd : C.decode p = none := by
        have h1 := hC.decode_short v p.length hv hlen
        rw [← hjoin, List.take_left] at h1
        exact h1
      have hc : c ≠ [] := hne c (List.mem_cons_self c cs)
      have h0 : c.length ≠ 0 := fun h => hc (List.length_eq_zero.mp h)
      have hr : Connection.readToBuffer { buffer := p, chunks := c :: cs } =
          .ok { buffer := p ++ c, chunks := cs } := by
        simp [Connection.readToBuffer, h0]
      have hfuel : (c :: cs).length + 1 = (cs.length + 1) + 1 := by simp
      rw [hfuel, read_succ_fill C (cs.length + 1) _ _ hd hr]
      by_cases hlt : (p ++ c).length < (C.encode v).length
      · exact ih (p ++ c) (fun d hdm => hne d (List.mem_cons_of_mem c hdm)) hlt
          (by rw [List.append_assoc]; exact hjoin)
      · push_neg at hlt
        have hjlen : p.length + (c.length + cs.flatten.length) =
            (C.encode v).length := by
          rw [← hjoin]; simp
        rw [List.length_append] at hlt
        have hjnil : cs.flatten = [] := by
          have hz : cs.flatten.length = 0 := by omega
          exact List.length_eq_zero.mp hz
        have hcs : cs = [] := by
          cases cs with
          | nil => rfl
          | cons d ds =>
              rw [List.flatten_cons] at hjnil
              have hdnil : d = [] := (List.append_eq_nil.mp hjnil).1
              exact absurd hdnil
                (hne d (List.mem_cons_of_mem c (List.mem_cons_self d ds)))
        subst hcs
        rw [hjnil, List.append_nil] at hjoin
        have hdone : C.decode (p ++ c) = some v := by
          rw [hjoin]
          have h2 := hC.decode_encode v [] hv
          rwa [List.append_nil] at h2
        exact read_succ_some C 0 { buffer := p ++ c, chunks := [] } v hdone

/-! ## Claims -/

/-- C1: the claim fails on the code.  When two encoded messages sit in the
receive buffer before the first decode succeeds, `Connection::read` decodes
the first message, then executes `self.buffer.clear()`, which discards the
second message's bytes along with the first's.  Afterwards no amount of fuel
lets a second `read` return the second value: its encoding is gone and the
loop spins on the closed stream.  The two messages are distinct, so the
second value is genuinely lost. -/
theorem pipelined_second_message_lost :
    Connection.read msgCodec 1
      { buffer := msgEncode ⟨1, [], []⟩ ++ msgEncode ⟨2, [], []⟩, chunks := [] } =
      some (.ok (some ⟨1, [], []⟩), { buffer := [], chunks := [] }) ∧
    (⟨1, [], []⟩ : TestMessage) ≠ ⟨2, [], []⟩ ∧
    ∀ fuel, Connection.read msgCodec fuel { buffer := [], chunks := [] } = none := by
  refine ⟨rfl, by decide, ?_⟩
  intro fuel
  exact read_empty_eof msgCodec rfl fuel

/-- C2: the claim fails on the code.  `Connection::read` has no `Ok(None)`
return path at all: when the peer closes with an empty buffer,
`read_to_buffer` returns `Ok(())` and the loop re-runs the failing parse and
the zero-byte fill forever.  No fuel makes the call return. -/
theorem clean_close_read_never_returns {α : Type} (C : Codec α)
    (hnil : C.decode [] = none) (fuel : Nat) :
    Connection.read C fuel { buffer := [], chunks := [] } = none :=
  read_empty_eof C hnil fuel

/-- C2 witness: the divergence at a concrete codec and fuel. -/
theorem clean_close_read_never_returns_witness :
    Connection.read boolCodec 5 { buffer := [], chunks := [] } = none :=
  clean_close_read_never_returns boolCodec rfl 5

/-- C3 counterexample: byte `2` is no bincode `bool` and can never become
one, yet the code does not fail with a decoding error: with data still
arriving the read loop keeps filling (fuel runs out), and at end of stream it
fails with `ConnectionReset` — never with `BincodeError`. -/
theorem malformed_not_decoding_error_cex :
    boolDecode [2] = none ∧ boolDecode [2, 0] = none ∧ boolDecode [2, 1] = none ∧
    Connection.read boolCodec 5 { buffer := [2], chunks := [] } =
      some (.error (.connectionReset "connection reset by peer"),
        { buffer := [2], chunks := [] }) ∧
    Connection.read boolCodec 3 { buffer := [2], chunks := [[0], [0], [0]] } = none :=
  ⟨rfl, rfl, rfl, rfl, rfl⟩

/-- C3 amended: `parse_value` collapses every decode failure into "not
enough bytes yet", so a buffer headed by a malformed byte sequence is
treated as recoverable-incomplete: the call never surfaces a decoding error
and never returns a value; it keeps issuing fill reads (looping while data
arrives) and fails with `ConnectionReset` once the stream closes. -/
theorem malformed_is_treated_as_incomplete {α : Type} (C : Codec α) (a : Nat)
    (p : List Nat) (hmal : ∀ rest, C.decode (a :: p ++ rest) = none)
    (fuel : Nat) (t : List Nat) (chunks : List (List Nat)) :
    Connection.read C fuel { buffer := a :: p ++ t, chunks := chunks } = none ∨
    ∃ s2, Connection.read C fuel { buffer := a :: p ++ t, chunks := chunks } =
      some (.error (.connectionReset "connection reset by peer"), s2) :=
  read_malformed_head C a p hmal fuel t chunks

/-- C3 witness: the amended behaviour at the concrete malformed byte `2`. -/
theorem malformed_is_treated_as_incomplete_witness :
    Connection.read boolCodec 2 { buffer := [2], chunks := [[7]] } = none ∨
    ∃ s2, Connection.read boolCodec 2 { buffer := [2], chunks := [[7]] } =
      some (.error (.connectionReset "connection reset by peer"), s2) :=
  malformed_is_treated_as_incomplete boolCodec 2 [] (fun _ => rfl) 2 [] [[7]]

/-- C4: a strict, undecodable prefix of one message's encoding is delivered
and then the peer closes: the zero-byte fill with a non-empty buffer makes
`read` fail with `ConnectionReset` — not with success-with-no-value. -/
theorem truncated_then_close_resets {α : Type} (C : Codec α)
    (hC : CodecLaws C) (v : α) (n : Nat) (hv : C.valid v) (hn0 : 0 < n)
    (hn : n < (C.encode v).length) :
    Connection.read C 3 { buffer := [], chunks := [(C.encode v).take n] } =
      some (.error (.connectionReset "connection reset by peer"),
        { buffer := (C.encode v).take n, chunks := [] }) := by
  have hlen : ((C.encode v).take n).length = n := by
    rw [List.length_take]; omega
  have h0 : ((C.encode v).take n).length ≠ 0 := by omega
  have hr1 : Connection.readToBuffer
      { buffer := [], chunks := [(C.encode v).take n] } =
      .ok { buffer := (C.encode v).take n, chunks := [] } := by
    simp [Connection.readToBuffer, h0]
  have e1 : Connection.read C 3 { buffer := [], chunks := [(C.encode v).take n] } =
      Connection.read C 2 { buffer := (C.encode v).take n, chunks := [] } :=
    read_succ_fill C 2 _ _ hC.decode_nil hr1
  have hd2 : C.decode ((C.encode v).take n) = none := hC.decode_short v n hv hn
  have hne : (C.encode v).take n ≠ [] := by
    intro h
    rw [h] at hlen
    simp at hlen
    omega
  have hr2 : Connection.readToBuffer
      { buffer := (C.encode v).take n, chunks := [] } =
      .error (.connectionReset "connection reset by peer") := by
    simp [Connection.readToBuffer, isEmpty_false_of_ne_nil _ hne]
  have e2 : Connection.read C 2 { buffer := (C.encode v).take n, chunks := [] } =
      some (.error (.connectionReset "connection reset by peer"),
        { buffer := (C.encode v).take n, chunks := [] }) :=
    read_succ_err C 1 _ _ hd2 hr2
  exact e1.trans e2

/-- C4 witness: a 5-byte prefix of the spec scenario message, then close. -/
theorem truncated_then_close_resets_witness :
    Connection.read msgCodec 3
      { buffer := [], chunks := [(msgEncode specMessage).take 5] } =
      some (.error (.connectionReset "connection reset by peer"),
        { buffer := (msgEncode specMessage).take 5, chunks := [] }) :=
  truncated_then_close_resets msgCodec msgCodec_laws specMessage 5
    (by decide : msgValid specMessage) (by decide)
    (by decide : 5 < (msgEncode specMessage).length)

/-- C5: round-trip.  Writing a valid value hands exactly its encoding to the
stream (flushed); reading on the other end with those bytes delivered intact
yields `Ok(Some v)` for the same value `v`. -/
theorem write_read_roundtrip {α : Type} (C : Codec α) (hC : CodecLaws C)
    (v : α) (s : OutStream) (hv : C.valid v) (hw : s.writeFails = false)
    (hf : s.flushFails = false) (hp : s.pending = []) :
    Connection.write C v s =
      .ok { sent := s.sent ++ C.encode v, pending := [], writeFails := false, flushFails := false } ∧
    Connection.read C 2 { buffer := [], chunks := [C.encode v] } =
      some (.ok (some v), { buffer := [], chunks := [] }) := by
  constructor
  · simp [Connection.write, Connection.writeToStream, Connection.writeAll,
      Connection.flushStream, hw, hf, hp]
  · have h0 : (C.encode v).length ≠ 0 := fun h =>
      hC.encode_ne_nil hv (List.length_eq_zero.mp h)
    have hr1 : Connection.readToBuffer { buffer := [], chunks := [C.encode v] } =
        .ok { buffer := C.encode v, chunks := [] } := by
      simp [Connection.readToBuffer, h0]
    have e1 : Connection.read C 2 { buffer := [], chunks := [C.encode v] } =
        Connection.read C 1 { buffer := C.encode v, chunks := [] } :=
      read_succ_fill C 1 _ _ hC.decode_nil hr1
    have hdec : C.decode (C.encode v) = some v := by
      have h2 := hC.decode_encode v [] hv
      rwa [List.append_nil] at h2
    have e2 : Connection.read C 1 { buffer := C.encode v, chunks := [] } =
        some (.ok (some v), { buffer := [], chunks := [] }) :=
      read_succ_some C 0 { buffer := C.encode v, chunks := [] } v hdec
    exact e1.trans e2

/-- C5 witness: the spec scenario message round-trips. -/
theorem write_read_roundtrip_witness :
    Connection.write msgCodec specMessage
      { sent := [], pending := [], writeFails := false, flushFails := false } =
      .ok { sent := msgEncode specMessage, pending := [], writeFails := false, flushFails := false } ∧
    Connection.read msgCodec 2 { buffer := [], chunks := [msgEncode specMessage] } =
      some (.ok (some specMessage), { buffer := [], chunks := [] }) :=
  write_read_roundtrip msgCodec msgCodec_laws specMessage
    { sent := [], pending := [], writeFails := false, flushFails := false }
    (by decide : msgValid specMessage) rfl rfl rfl

/-- C6: fragmentation-independence.  Whatever nonempty fragments the
transport delivers the encoding in (single bytes included), one `read` call
issues the fill reads it needs and returns exactly the encoded value. -/
theorem fragmented_delivery {α : Type} (C : Codec α) (hC : CodecLaws C)
    (v : α) (cs : List (List Nat)) (hv : C.valid v)
    (hne : ∀ c ∈ cs, c ≠ []) (hj : cs.flatten = C.encode v) :
    Connection.read C (cs.length + 1) { buffer := [], chunks := cs } =
      some (.ok (some v), { buffer := [], chunks := [] }) := by
  have hpos : 0 < (C.encode v).length :=
    List.length_pos.mpr (hC.encode_ne_nil hv)
  have hlen : ([] : List Nat).length < (C.encode v).length := by simpa using hpos
  exact read_fragments C hC v hv cs [] hne hlen
    (by rw [List.nil_append]; exact hj)

/-- C6 witness: the spec scenario message delivered one byte at a time. -/
theorem fragmented_delivery_witness :
    Connection.read msgCodec
      (((msgEncode specMessage).map (fun b => [b])).length + 1)
      { buffer := [], chunks := (msgEncode specMessage).map (fun b => [b]) } =
      some (.ok (some specMessage), { buffer := [], chunks := [] }) :=
  fragmented_delivery msgCodec msgCodec_laws specMessage
    ((msgEncode specMessage).map (fun b => [b]))
    (by decide : msgValid specMessage) (by decide) (by decide)

/-- C7: `Connection::write` serializes with bincode, writes the whole byte
sequence through the buffered writer and flushes: on success the stream has
received exactly the encoding (nothing left pending), and if the underlying
write or flush fails the call returns the `IoError` variant. -/
theorem write_contract {α : Type} (C : Codec α) (v : α) (s : OutStream) :
    (s.writeFails = false → s.flushFails = false →
      Connection.write C v s =
        .ok { sent := s.sent ++ (s.pending ++ C.encode v), pending := [], writeFails := false, flushFails := false }) ∧
    (s.writeFails = true ∨ s.flushFails = true →
      Connection.write C v s = .error .ioError) := by
  constructor
  · intro hw hf
    simp [Connection.write, Connection.writeToStream, Connection.writeAll,
      Connection.flushStream, hw, hf]
  · intro h
    rcases h with h | h
    · simp [Connection.write, Connection.writeToStream, Connection.writeAll, h]
    · by_cases hw : s.writeFails
      · simp [Connection.write, Connection.writeToStream, Connection.writeAll, hw]
      · simp [Connection.write, Connection.writeToStream, Connection.writeAll,
          Connection.flushStream, hw, h]

/-- C7 witness: a clean write of `true`, and a failing flush. -/
theorem write_contract_witness :
    Connection.write boolCodec true
      { sent := [], pending := [], writeFails := false, flushFails := false } =
      .ok { sent := boolEncode true, pending := [], writeFails := false, flushFails := false } ∧
    Connection.write boolCodec true
      { sent := [], pending := [], writeFails := false, flushFails := true } =
      .error .ioError :=
  ⟨(write_contract boolCodec true
      { sent := [], pending := [], writeFails := false, flushFails := false }).1
      rfl rfl,
   (write_contract boolCodec true
      { sent := [], pending := [], writeFails := false, flushFails := true }).2
      (Or.inr rfl)⟩

/-- C8: the trace of buffer states a `read` call actually visits starts at
the initial buffer, ends at the returned buffer, and every adjacent pair —
the before/after of each single buffer mutation the call performs — is
either a tail-append (a fill read) or a whole-buffer clear (the successful
decode); so bytes already buffered are never reordered, overwritten or
partially removed by any step. -/
theorem buffer_changes_append_or_clear {α : Type} (C : Codec α) (fuel : Nat)
    (s s2 : ConnState) (r : Except ConnectionError (Option α))
    (h : Connection.read C fuel s = some (r, s2)) :
    (Connection.readTrace C fuel s).head? = some s.buffer ∧
    (Connection.readTrace C fuel s).getLast? = some s2.buffer ∧
    List.Chain' bufStep (Connection.readTrace C fuel s) := by
  induction fuel generalizing s with
  | zero => exact absurd h (by simp [Connection.read])
  | succ fuel ih =>
      cases hd : C.decode s.buffer with
      | some v =>
          rw [read_succ_some C fuel s v hd] at h
          simp only [Option.some.injEq, Prod.mk.injEq] at h
          obtain ⟨h1, h2⟩ := h
          subst h2
          rw [readTrace_succ_some C fuel s v hd]
          exact ⟨rfl, rfl, List.chain'_pair.mpr (Or.inr rfl)⟩
      | none =>
          cases hr : Connection.readToBuffer s with
          | error e =>
              rw [read_succ_err C fuel s e hd hr] at h
              simp only [Option.some.injEq, Prod.mk.injEq] at h
              obtain ⟨h1, h2⟩ := h
              subst h2
              rw [readTrace_succ_err C fuel s e hd hr]
              exact ⟨rfl, rfl, List.chain'_singleton _⟩
          | ok t =>
              rw [read_succ_fill C fuel s t hd hr] at h
              rw [readTrace_succ_fill C fuel s t hd hr]
              obtain ⟨hh, hl, hc⟩ := ih t h
              obtain ⟨T2, hT⟩ := readTrace_cons C fuel t
              refine ⟨rfl, ?_, ?_⟩
              · rw [hT, List.getLast?_cons_cons, ← hT]
                exact hl
              · refine List.chain'_cons'.mpr ⟨?_, hc⟩
                intro y hy
                rw [hT] at hy
                simp only [List.head?_cons, Option.mem_def,
                  Option.some.injEq] at hy
                subst hy
                exact Or.inl (readToBuffer_ok_append s t hr)

/-- C8 witness: a run that appends one chunk and then fails at end of
stream; the visited buffers are `[5]` then `[5, 1]`, one tail-append. -/
theorem buffer_changes_append_or_clear_witness :
    (Connection.readTrace boolCodec 2 { buffer := [5], chunks := [[1]] }).head? =
      some [5] ∧
    (Connection.readTrace boolCodec 2 { buffer := [5], chunks := [[1]] }).getLast? =
      some [5, 1] ∧
    List.Chain' bufStep
      (Connection.readTrace boolCodec 2 { buffer := [5], chunks := [[1]] }) :=
  buffer_changes_append_or_clear boolCodec 2 { buffer := [5], chunks := [[1]] }
    { buffer := [5, 1], chunks := [] }
    (.error (.connectionReset "connection reset by peer")) rfl

/-- C9: when `read` succeeds with a value, the buffer was cleared and the
call returned at once: the final state has an empty buffer, and its chunk
stream is exactly the one at decode time — no fill read happens between the
successful decode and the return. -/
theorem success_clears_buffer_and_returns {α : Type} (C : Codec α)
    (fuel : Nat) (s s2 : ConnState) (v : α)
    (h : Connection.read C fuel s = some (.ok (some v), s2)) :
    s2.buffer = [] ∧
    ∃ b, Relation.ReflTransGen fillStep s { buffer := b, chunks := s2.chunks } ∧
      C.decode b = some v := by
  induction fuel generalizing s with
  | zero => exact absurd h (by simp [Connection.read])
  | succ fuel ih =>
      cases hd : C.decode s.buffer with
      | some w =>
          rw [read_succ_some C fuel s w hd] at h
          simp only [Option.some.injEq, Prod.mk.injEq, Except.ok.injEq] at h
          obtain ⟨h1, h2⟩ := h
          subst h2
          subst h1
          exact ⟨rfl, s.buffer, Relation.ReflTransGen.refl, hd⟩
      | none =>
          cases hr : Connection.readToBuffer s with
          | error e =>
              rw [read_succ_err C fuel s e hd hr] at h
              simp at h
          | ok t =>
              rw [read_succ_fill C fuel s t hd hr] at h
              obtain ⟨hbuf, b, hrtg, hdec⟩ := ih t h
              exact ⟨hbuf, b, Relation.ReflTransGen.head hr hrtg, hdec⟩

/-- C9 witness: a successful read of `true` after one fill. -/
theorem success_clears_buffer_and_returns_witness :
    ([] : List Nat) = [] ∧
    ∃ b, Relation.ReflTransGen fillStep { buffer := [], chunks := [[1]] }
      { buffer := b, chunks := [] } ∧ boolCodec.decode b = some true :=
  success_clears_buffer_and_returns boolCodec 2 { buffer := [], chunks := [[1]] }
    { buffer := [], chunks := [] } true rfl

/-- C10: when `read` fails with `ConnectionReset`, the returned state is the
one at the failing fill: its buffer is non-empty (the partial-message bytes
accumulated so far, reached from the initial state by fill reads only) and
the failing step itself did not modify it. -/
theorem reset_error_leaves_buffer {α : Type} (C : Codec α) (fuel : Nat)
    (s s2 : ConnState) (msg : String)
    (h : Connection.read C fuel s = some (.error (.connectionReset msg), s2)) :
    s2.buffer ≠ [] ∧ Relation.ReflTransGen fillStep s s2 ∧
      Connection.readToBuffer s2 = .error (.connectionReset msg) := by
  induction fuel generalizing s with
  | zero => exact absurd h (by simp [Connection.read])
  | succ fuel ih =>
      cases hd : C.decode s.buffer with
      | some w =>
          rw [read_succ_some C fuel s w hd] at h
          simp at h
      | none =>
          cases hr : Connection.readToBuffer s with
          | error e =>
              rw [read_succ_err C fuel s e hd hr] at h
              simp only [Option.some.injEq, Prod.mk.injEq,
                Except.error.injEq] at h
              obtain ⟨h1, h2⟩ := h
              subst h2
              subst h1
              exact ⟨readToBuffer_error_ne_nil s _ hr,
                Relation.ReflTransGen.refl, hr⟩
          | ok t =>
              rw [read_succ_fill C fuel s t hd hr] at h
              obtain ⟨h1, h2, h3⟩ := ih t h
              exact ⟨h1, Relation.ReflTransGen.head hr h2, h3⟩

/-- C10 witness: a reset with the one-byte partial message still buffered. -/
theorem reset_error_leaves_buffer_witness :
    ([5] : List Nat) ≠ [] ∧
    Relation.ReflTransGen fillStep { buffer := [5], chunks := [] }
      { buffer := [5], chunks := [] } ∧
    Connection.readToBuffer { buffer := [5], chunks := [] } =
      .error (.connectionReset "connection reset by peer") :=
  reset_error_leaves_buffer boolCodec 1 { buffer := [5], chunks := [] }
    { buffer := [5], chunks := [] } "connection reset by peer" rfl
